import Mathlib

/-!
Verification development for the top-k cosine-similarity engine of the
`diploma-thesis` repository (`src/diploma_thesis/utils/compute_cosine_similarity.py`).

The Python code is shallowly embedded as follows:

* float values are modelled as exact reals (`ℝ`); the sentinel `-np.inf`
  written into the similarity matrix (line 52) is modelled as `⊥` of
  `WithBot ℝ`;
* the n × d numpy matrix `vectors` is a `List (List ℝ)` of its rows;
* `np.linalg.norm(vectors, axis=1)` (line 39) is the row-wise L2 norm
  `Real.sqrt` of the sum of squares;
* `np.clip(norms, a_min=1e-10, a_max=None)` (line 40) is `max · (1/10^10)`;
* the Python `dict` accumulated at line 68 is an association list built by
  `dictInsert`, which replaces the value of an existing key in place and
  appends a fresh key at the end — exactly CPython's `dict.__setitem__`;
* `assert` / `raise ValueError` become an `Except SimError` result, with the
  two Python exception kinds (`AssertionError` at line 33, `ValueError` at
  line 36) kept distinct and their message strings reproduced verbatim;
* `np.argpartition(...)[ :, -k:]` followed by `np.argsort(-...)`
  (lines 56-62) — "select the k largest entries of the row, then order them
  by descending similarity" — is modelled as sorting all (index, value)
  pairs of the row by descending value with the spec's tie-breaking rule
  ("ties broken arbitrarily but deterministically, stable with respect to
  neighbor index order") and taking the first k;
* the batch loop `for start in range(0, n_vectors, batch_size)` (line 44)
  is `procFrom`, which produces the processed global row indices batch by
  batch;
* `load_similarities_from_pkl` (lines 119-139) is modelled against an
  abstract file state (missing / corrupt / good), since the pickle file
  itself is outside the program.
-/

namespace DiplomaThesis

/-- The norm floor `1e-10` hard-coded at
`compute_cosine_similarity.py:40` (`a_min=1e-10`). -/
noncomputable def eps : ℝ := 1 / 10 ^ 10

/-- Sum of squares of the entries of one row, the radicand of
`np.linalg.norm(vectors, axis=1)` (line 39). -/
def sumSq (v : List ℝ) : ℝ := (v.map (fun x => x ^ 2)).sum

/-- Row-wise L2 norm `np.linalg.norm(vectors, axis=1)` (line 39). -/
noncomputable def norm2 (v : List ℝ) : ℝ := Real.sqrt (sumSq v)

/-- `np.clip(norms, a_min=1e-10, a_max=None)` (line 40). -/
noncomputable def clippedNorm (v : List ℝ) : ℝ := max (norm2 v) eps

/-- `vectors / np.clip(norms, a_min=1e-10, a_max=None)` (line 40):
one row divided by its clipped norm. -/
noncomputable def normalize (v : List ℝ) : List ℝ := v.map (fun x => x / clippedNorm v)

/-- Dot product of two rows, one entry of `np.dot(batch, vectors_norm.T)`
(line 48). -/
def dot (u v : List ℝ) : ℝ := (List.zipWith (fun a b => a * b) u v).sum

/-- One value of the result dict:
`{"top_keys": [...], "similarities": [...]}` (line 68). -/
structure Entry (K : Type) where
  top_keys : List K
  similarities : List (WithBot ℝ)

/-- The two Python exception kinds raised by `compute_topk_similarities`:
`AssertionError` from the `assert` at line 33 and `ValueError` from the
`raise` at line 36. -/
inductive SimError where
  | assertionError (msg : String)
  | valueError (msg : String)
deriving DecidableEq

/-- The (column index, value) pairs of one similarity row; the index set on
which `np.argpartition` / `np.argsort` (lines 56-62) operate. -/
def rowPairs {α : Type} (dflt : α) (row : List α) : List (ℕ × α) :=
  (List.range row.length).map (fun j => (j, row.getD j dflt))

/-- Ordering of (index, value) pairs by descending value, the order
produced by `np.argsort(-batch_top_sims)` (line 60). -/
def descSim {α : Type} [LinearOrder α] (a b : ℕ × α) : Prop := b.2 ≤ a.2

instance {α : Type} [LinearOrder α] : DecidableRel (descSim (α := α)) :=
  fun a b => inferInstanceAs (Decidable (b.2 ≤ a.2))

instance {α : Type} [LinearOrder α] : IsTotal (ℕ × α) (descSim (α := α)) :=
  ⟨fun a b => le_total b.2 a.2⟩

instance {α : Type} [LinearOrder α] : IsTrans (ℕ × α) (descSim (α := α)) :=
  ⟨fun _ _ _ h1 h2 => le_trans h2 h1⟩

/-- Top-k selection of one row (lines 54-62): select the k largest entries
(`np.argpartition(sims, -k)[:, -k:]`) and order them by descending
similarity (`np.argsort(-batch_top_sims)`).  Modelled as sorting all
(index, value) pairs by descending value — stable, so ties keep the
ascending index order — and taking the first k.  NumPy leaves the order of
equal elements unspecified (the partition order of `argpartition` is
undefined and the default `argsort` kind is an unstable quicksort), so the
stable tie-break here is one admissible resolution; every property proved
about the engine below is insensitive to how ties are resolved. -/
def topkRow {α : Type} [LinearOrder α] (dflt : α) (row : List α) (k : ℕ) :
    List (ℕ × α) :=
  ((rowPairs dflt row).insertionSort descSim).take k

/-- Row `g` of `np.dot(batch, vectors_norm.T)` (line 48): the dot products
of normalized row `g` against every normalized row. -/
noncomputable def simsRow (Vn : List (List ℝ)) (g : ℕ) : List ℝ :=
  Vn.map (fun w => dot (Vn.getD g []) w)

/-- `sims[i, start + i] = -np.inf` (lines 51-52): overwrite the entry at
the global index `g` of row `g` with `-inf` (modelled as `⊥`). -/
def excludeSelf (row : List ℝ) (g : ℕ) : List (WithBot ℝ) :=
  (row.map (fun (x : ℝ) => (x : WithBot ℝ))).set g ⊥

/-- The result-dict value built for global row `g` (lines 64-68):
`top_keys = [keys[j] for j in batch_top_idx_sorted[i]]` and
`similarities = batch_top_sims_sorted[i].tolist()`. -/
noncomputable def rowEntry {K : Type} [Inhabited K] (keys : List K)
    (Vn : List (List ℝ)) (k : ℕ) (g : ℕ) : Entry K :=
  let sel := topkRow ⊥ (excludeSelf (simsRow Vn g) g) k
  ⟨sel.map (fun p => keys.getD p.1 default), sel.map (fun p => p.2)⟩

/-- CPython `dict.__setitem__` on an association list: an existing key keeps
its position and has its value replaced; a fresh key is appended at the
end.  This is the semantics of `results[keys[vec_idx]] = ...` (line 68). -/
def dictInsert {K V : Type} [DecidableEq K] :
    List (K × V) → K → V → List (K × V)
  | [], key, v => [(key, v)]
  | p :: rest, key, v =>
      if p.1 = key then (key, v) :: rest else p :: dictInsert rest key v

/-- CPython `dict.__getitem__` on the association list. -/
def dictLookup {K V : Type} [DecidableEq K] (d : List (K × V)) (key : K) :
    Option V :=
  match d with
  | [] => none
  | p :: rest => if p.1 = key then some p.2 else dictLookup rest key

/-- The accumulation of the result dict over a list of global row indices:
`results = {}` (line 42) followed by `results[keys[vec_idx]] = ...`
(line 68) for each processed row. -/
def buildWith {K V : Type} [DecidableEq K] (keyOf : ℕ → K) (entOf : ℕ → V)
    (rows : List ℕ) : List (K × V) :=
  rows.foldl (fun acc g => dictInsert acc (keyOf g) (entOf g)) []

/-- The global row indices processed by the batch loop
`for start in range(0, n_vectors, batch_size)` (lines 44-45) from a given
`start` on: each batch covers `range(start, min(start + batch_size, n))`.
(For `batch_size = 0` Python's `range` raises; the claims only concern
positive batch sizes, for which this is exact.) -/
def procFrom (n bs : ℕ) (start : ℕ) : List ℕ :=
  if _h : 0 < bs ∧ start < n then
    List.range' start (min (start + bs) n - start) ++ procFrom n bs (start + bs)
  else []
termination_by n - start
decreasing_by omega

/-- Shallow embedding of `compute_topk_similarities`
(`compute_cosine_similarity.py:18-70`).  The `assert` at line 33 and the
`raise ValueError` at lines 35-36 become `Except.error`; the happy path
normalizes the rows (lines 39-40) and folds the per-row top-k entries into
the result dict (lines 42-70). -/
noncomputable def compute_topk_similarities {K : Type} [DecidableEq K] [Inhabited K]
    (keys : List K) (vectors : List (List ℝ)) (k : ℤ) (batch_size : ℕ) :
    Except SimError (List (K × Entry K)) :=
  if keys.length ≠ vectors.length then
    .error (.assertionError "Keys length must match vectors count")
  else if ¬(0 < k ∧ k < (vectors.length : ℤ)) then
    .error (.valueError ("k must be greater than 0 and less than the number of vectors ("
      ++ toString vectors.length ++ "). Got k=" ++ toString k))
  else
    let vectors_norm := vectors.map normalize
    .ok (buildWith (fun g => keys.getD g default)
          (fun g => rowEntry keys vectors_norm k.toNat g)
          (procFrom vectors.length batch_size 0))

/-- The truncation applied by the emission layer
`save_similarities_to_neo4j` (lines 166-168):
`article_data["top_keys"][:top_n]` and
`article_data["similarities"][:top_n]`. -/
def truncEntry {K : Type} (top_n : ℕ) (e : Entry K) : Entry K :=
  ⟨e.top_keys.take top_n, e.similarities.take top_n⟩

/-- The state of the pickle file read by `load_similarities_from_pkl`
(lines 119-139): absent, present but unreadable, or holding data `d`. -/
inductive FileState (D : Type) where
  | missing
  | corrupt
  | good (data : D)

/-- Shallow embedding of `load_similarities_from_pkl` (lines 119-139):
a missing file (`FileNotFoundError`, line 134) and a corrupt file (the
generic `except Exception` at line 137) are both caught, logged and turned
into the return value `None`; a readable file returns its data. -/
def load_similarities_from_pkl {D : Type} (fs : FileState D) : Option D :=
  match fs with
  | .missing => none
  | .corrupt => none
  | .good d => some d

/-- The guard `if not data: ... return` opening `save_similarities_to_neo4j`
(lines 152-154): the writer proceeds only when handed a non-`None`,
non-empty result dict. -/
def save_similarities_proceeds {K : Type} (data : Option (List (K × Entry K))) : Bool :=
  match data with
  | none => false
  | some d => !d.isEmpty

/-! ### The batch loop visits every row exactly once, in order -/

theorem procFrom_eq_range' (n bs : ℕ) (hbs : 0 < bs) (start : ℕ) :
    procFrom n bs start = List.range' start (n - start) := by
  have H : ∀ m s, n - s ≤ m → procFrom n bs s = List.range' s (n - s) := by
    intro m
    induction m with
    | zero =>
        intro s hm
        rw [procFrom]
        rw [dif_neg (by omega)]
        have h0 : n - s = 0 := by omega
        rw [h0]
        rfl
    | succ m ih =>
        intro s hm
        rw [procFrom]
        by_cases hs : s < n
        · rw [dif_pos ⟨hbs, hs⟩, ih (s + bs) (by omega)]
          by_cases hend : s + bs ≤ n
          · have h1 : min (s + bs) n - s = bs := by omega
            have h2 : n - (s + bs) = n - s - bs := by omega
            rw [h1, h2, List.range'_append_1]
            congr 1
            omega
          · have h1 : min (s + bs) n - s = n - s := by omega
            have h2 : n - (s + bs) = 0 := by omega
            rw [h1, h2]
            simp
        · rw [dif_neg (by omega)]
          have h0 : n - s = 0 := by omega
          rw [h0]
          rfl
  exact H (n - start) start le_rfl

theorem procFrom_eq_range (n bs : ℕ) (hbs : 0 < bs) :
    procFrom n bs 0 = List.range n := by
  rw [procFrom_eq_range' n bs hbs 0, Nat.sub_zero, List.range_eq_range']

/-! ### Association-list dict lemmas -/

theorem mem_dictInsert {K V : Type} [DecidableEq K] (d : List (K × V)) (key : K) (v : V)
    (p : K × V) (hp : p ∈ dictInsert d key v) : p ∈ d ∨ p = (key, v) := by
  induction d with
  | nil =>
      right
      simpa [dictInsert] using hp
  | cons q rest ih =>
      by_cases hq : q.1 = key
      · rw [dictInsert, if_pos hq] at hp
        rcases List.mem_cons.1 hp with h | h
        · right; exact h
        · left; exact List.mem_cons_of_mem _ h
      · rw [dictInsert, if_neg hq] at hp
        rcases List.mem_cons.1 hp with h | h
        · left; exact h ▸ List.mem_cons_self q rest
        · rcases ih h with h' | h'
          · left; exact List.mem_cons_of_mem _ h'
          · right; exact h'

theorem dictInsert_of_not_mem {K V : Type} [DecidableEq K] (d : List (K × V)) (key : K)
    (v : V) (h : key ∉ d.map Prod.fst) : dictInsert d key v = d ++ [(key, v)] := by
  induction d with
  | nil => rfl
  | cons q rest ih =>
      simp only [List.map_cons, List.mem_cons] at h
      push_neg at h
      rw [dictInsert, if_neg (fun e => h.1 e.symm), ih h.2]
      rfl

theorem map_fst_dictInsert {K V : Type} [DecidableEq K] (d : List (K × V)) (key : K)
    (v : V) (a : K) :
    a ∈ (dictInsert d key v).map Prod.fst ↔ a ∈ d.map Prod.fst ∨ a = key := by
  induction d with
  | nil => simp [dictInsert]
  | cons q rest ih =>
      by_cases hq : q.1 = key
      · rw [dictInsert, if_pos hq]
        simp only [List.map_cons, List.mem_cons, hq]
        tauto
      · rw [dictInsert, if_neg hq]
        simp only [List.map_cons, List.mem_cons, ih]
        tauto

theorem nodup_map_fst_dictInsert {K V : Type} [DecidableEq K] (d : List (K × V)) (key : K)
    (v : V) (h : (d.map Prod.fst).Nodup) : ((dictInsert d key v).map Prod.fst).Nodup := by
  induction d with
  | nil => simp [dictInsert]
  | cons q rest ih =>
      simp only [List.map_cons, List.nodup_cons] at h
      by_cases hq : q.1 = key
      · rw [dictInsert, if_pos hq]
        simp only [List.map_cons, List.nodup_cons]
        exact ⟨hq ▸ h.1, h.2⟩
      · rw [dictInsert, if_neg hq]
        simp only [List.map_cons, List.nodup_cons]
        refine ⟨fun hmem => ?_, ih h.2⟩
        rcases (map_fst_dictInsert rest key v q.1).1 hmem with h' | h'
        · exact h.1 h'
        · exact hq h'

theorem dictLookup_dictInsert_self {K V : Type} [DecidableEq K] (d : List (K × V))
    (key : K) (v : V) : dictLookup (dictInsert d key v) key = some v := by
  induction d with
  | nil => simp [dictInsert, dictLookup]
  | cons q rest ih =>
      by_cases hq : q.1 = key
      · rw [dictInsert, if_pos hq]
        simp [dictLookup]
      · rw [dictInsert, if_neg hq]
        rw [dictLookup, if_neg hq]
        exact ih

theorem dictLookup_dictInsert_ne {K V : Type} [DecidableEq K] (d : List (K × V))
    (key key' : K) (v : V) (h : key' ≠ key) :
    dictLookup (dictInsert d key v) key' = dictLookup d key' := by
  induction d with
  | nil =>
      show (if key = key' then some v else dictLookup ([] : List (K × V)) key')
        = dictLookup ([] : List (K × V)) key'
      rw [if_neg (show ¬key = key' from fun e => h e.symm)]
  | cons q rest ih =>
      by_cases hq : q.1 = key
      · rw [dictInsert, if_pos hq]
        show (if key = key' then some v else dictLookup rest key')
          = if q.1 = key' then some q.2 else dictLookup rest key'
        rw [if_neg (show ¬key = key' from fun e => h e.symm),
          if_neg (show ¬q.1 = key' from fun e => h (hq.symm.trans e).symm)]
      · rw [dictInsert, if_neg hq]
        show (if q.1 = key' then some q.2 else dictLookup (dictInsert rest key v) key')
          = if q.1 = key' then some q.2 else dictLookup rest key'
        rw [ih]

/-! ### Lemmas about the result-dict accumulation -/

theorem buildWith_append {K V : Type} [DecidableEq K] (keyOf : ℕ → K) (entOf : ℕ → V)
    (rows : List ℕ) (g : ℕ) :
    buildWith keyOf entOf (rows ++ [g]) =
      dictInsert (buildWith keyOf entOf rows) (keyOf g) (entOf g) := by
  simp [buildWith, List.foldl_append]

theorem mem_foldl_dictInsert {K V : Type} [DecidableEq K] (keyOf : ℕ → K) (entOf : ℕ → V) :
    ∀ (rows : List ℕ) (acc : List (K × V)) (p : K × V),
      p ∈ rows.foldl (fun acc g => dictInsert acc (keyOf g) (entOf g)) acc →
      p ∈ acc ∨ ∃ g ∈ rows, p = (keyOf g, entOf g) := by
  intro rows
  induction rows with
  | nil =>
      intro acc p hp
      left
      exact hp
  | cons g rest ih =>
      intro acc p hp
      rcases ih _ p hp with h | ⟨g', hg', he⟩
      · rcases mem_dictInsert _ _ _ _ h with h' | h'
        · left; exact h'
        · right; exact ⟨g, List.mem_cons_self g rest, h'⟩
      · right; exact ⟨g', List.mem_cons_of_mem _ hg', he⟩

theorem mem_buildWith {K V : Type} [DecidableEq K] (keyOf : ℕ → K) (entOf : ℕ → V)
    (rows : List ℕ) (p : K × V) (hp : p ∈ buildWith keyOf entOf rows) :
    ∃ g ∈ rows, p = (keyOf g, entOf g) := by
  rcases mem_foldl_dictInsert keyOf entOf rows [] p hp with h | h
  · exact absurd h (List.not_mem_nil p)
  · exact h

theorem buildWith_eq_map {K V : Type} [DecidableEq K] (keyOf : ℕ → K) (entOf : ℕ → V)
    (rows : List ℕ)
    (hinj : ∀ g1 ∈ rows, ∀ g2 ∈ rows, keyOf g1 = keyOf g2 → g1 = g2)
    (hnd : rows.Nodup) :
    buildWith keyOf entOf rows = rows.map (fun g => (keyOf g, entOf g)) := by
  induction rows using List.reverseRecOn with
  | nil => rfl
  | append_singleton rows g ih =>
      have hsub : ∀ x ∈ rows, x ∈ rows ++ [g] := fun x hx =>
        List.mem_append.2 (Or.inl hx)
      rw [buildWith_append,
        ih (fun g1 h1 g2 h2 he => hinj g1 (hsub g1 h1) g2 (hsub g2 h2) he)
          (hnd.sublist (List.sublist_append_left rows [g])),
        dictInsert_of_not_mem]
      · simp
      · intro hmem
        simp only [List.map_map, Function.comp] at hmem
        rcases List.mem_map.1 hmem with ⟨g', hg', he⟩
        have hgm : g ∈ rows ++ [g] := List.mem_append.2 (Or.inr (List.mem_cons_self g []))
        have hg'g : g' = g := hinj g' (hsub g' hg') g hgm he
        subst hg'g
        exact List.disjoint_of_nodup_append hnd hg' (List.mem_cons_self g' [])

theorem nodup_map_fst_buildWith {K V : Type} [DecidableEq K] (keyOf : ℕ → K)
    (entOf : ℕ → V) (rows : List ℕ) :
    ((buildWith keyOf entOf rows).map Prod.fst).Nodup := by
  induction rows using List.reverseRecOn with
  | nil => simp [buildWith]
  | append_singleton rows g ih =>
      rw [buildWith_append]
      exact nodup_map_fst_dictInsert _ _ _ ih

theorem mem_map_fst_buildWith {K V : Type} [DecidableEq K] (keyOf : ℕ → K)
    (entOf : ℕ → V) (rows : List ℕ) (a : K) :
    a ∈ (buildWith keyOf entOf rows).map Prod.fst ↔ ∃ g ∈ rows, keyOf g = a := by
  induction rows using List.reverseRecOn with
  | nil => simp [buildWith]
  | append_singleton rows g ih =>
      rw [buildWith_append, map_fst_dictInsert]
      simp only [ih, List.mem_append, List.mem_singleton]
      constructor
      · rintro (⟨g', hg', he⟩ | he)
        · exact ⟨g', Or.inl hg', he⟩
        · exact ⟨g, Or.inr rfl, he.symm⟩
      · rintro ⟨g', hg' | hg', he⟩
        · exact Or.inl ⟨g', hg', he⟩
        · exact Or.inr (hg' ▸ he.symm)

theorem dictLookup_buildWith_range {K V : Type} [DecidableEq K] (keyOf : ℕ → K)
    (entOf : ℕ → V) :
    ∀ n g : ℕ, g < n → (∀ j, g < j → j < n → keyOf j ≠ keyOf g) →
      dictLookup (buildWith keyOf entOf (List.range n)) (keyOf g) = some (entOf g) := by
  intro n
  induction n with
  | zero => intro g hg _; omega
  | succ m ih =>
      intro g hg hlast
      rw [List.range_succ, buildWith_append]
      by_cases hgm : g = m
      · subst hgm
        exact dictLookup_dictInsert_self _ _ _
      · rw [dictLookup_dictInsert_ne _ _ _ _ (Ne.symm (hlast m (by omega) (by omega)))]
        exact ih g (by omega) (fun j h1 h2 => hlast j h1 (by omega))

theorem dictInsert_map_snd {K V W : Type} [DecidableEq K] (f : V → W) (d : List (K × V))
    (key : K) (v : V) :
    (dictInsert d key v).map (fun p => (p.1, f p.2)) =
      dictInsert (d.map (fun p => (p.1, f p.2))) key (f v) := by
  induction d with
  | nil => rfl
  | cons q rest ih =>
      by_cases hq : q.1 = key
      · rw [dictInsert, if_pos hq]
        simp only [List.map_cons]
        rw [dictInsert, if_pos hq]
      · rw [dictInsert, if_neg hq]
        simp only [List.map_cons]
        rw [dictInsert, if_neg hq, ih]

theorem buildWith_map_snd {K V W : Type} [DecidableEq K] (f : V → W) (keyOf : ℕ → K)
    (entOf : ℕ → V) (rows : List ℕ) :
    (buildWith keyOf entOf rows).map (fun p => (p.1, f p.2)) =
      buildWith keyOf (fun g => f (entOf g)) rows := by
  induction rows using List.reverseRecOn with
  | nil => rfl
  | append_singleton rows g ih =>
      rw [buildWith_append, dictInsert_map_snd, ih, buildWith_append]

/-! ### Top-k selection lemmas -/

theorem length_rowPairs {α : Type} (dflt : α) (row : List α) :
    (rowPairs dflt row).length = row.length := by
  simp [rowPairs]

theorem mem_rowPairs {α : Type} (dflt : α) (row : List α) (p : ℕ × α)
    (hp : p ∈ rowPairs dflt row) : p.1 < row.length ∧ p.2 = row.getD p.1 dflt := by
  rcases List.mem_map.1 hp with ⟨j, hj, he⟩
  subst he
  exact ⟨List.mem_range.1 hj, rfl⟩

theorem length_topkRow {α : Type} [LinearOrder α] (dflt : α) (row : List α) (k : ℕ) :
    (topkRow dflt row k).length = min k row.length := by
  simp [topkRow, List.length_take, List.length_insertionSort, length_rowPairs]

theorem sorted_topkRow {α : Type} [LinearOrder α] (dflt : α) (row : List α) (k : ℕ) :
    (topkRow dflt row k).Pairwise descSim :=
  List.Pairwise.sublist (List.take_sublist _ _) (List.sorted_insertionSort descSim _)

theorem mem_topkRow {α : Type} [LinearOrder α] (dflt : α) (row : List α) (k : ℕ)
    (p : ℕ × α) (hp : p ∈ topkRow dflt row k) :
    p.1 < row.length ∧ p.2 = row.getD p.1 dflt :=
  mem_rowPairs _ _ _ ((List.mem_insertionSort _).1 (List.mem_of_mem_take hp))

/-- In a list sorted by descending value, at most `i` elements have a value
strictly above the value at position `i`. -/
theorem sorted_countP_le {α : Type} [LinearOrder α] (S : List (ℕ × α))
    (hS : S.Pairwise descSim) (i : ℕ) (hi : i < S.length) (x : α)
    (hx : S[i].2 = x) : S.countP (fun q => decide (x < q.2)) ≤ i := by
  have hdrop : (S.drop i).countP (fun q => decide (x < q.2)) = 0 := by
    rw [List.countP_eq_zero]
    intro q hq
    simp only [decide_eq_true_eq, not_lt]
    rcases List.mem_iff_getElem.1 hq with ⟨m, hm, he⟩
    rw [List.getElem_drop] at he
    rcases Nat.eq_zero_or_pos m with hm0 | hm0
    · subst hm0
      rw [← hx, ← he]
      simp
    · have hm' : i + m < S.length := by
        have h2 := hm
        rw [List.length_drop] at h2
        omega
      have hrel := List.pairwise_iff_getElem.1 hS i (i + m) hi hm' (by omega)
      rw [he] at hrel
      exact hx ▸ hrel
  have hsplit : S.countP (fun q => decide (x < q.2)) =
      (S.take i).countP (fun q => decide (x < q.2)) +
      (S.drop i).countP (fun q => decide (x < q.2)) := by
    conv_lhs => rw [← List.take_append_drop i S]
    rw [List.countP_append]
  rw [hsplit, hdrop, Nat.add_zero]
  calc (S.take i).countP (fun q => decide (x < q.2)) ≤ (S.take i).length :=
        List.countP_le_length _
    _ ≤ i := by simp [List.length_take]

theorem length_excludeSelf (row : List ℝ) (g : ℕ) :
    (excludeSelf row g).length = row.length := by
  rw [excludeSelf, List.length_set, List.length_map]

/-- The excluded row holds `⊥` exactly at position `g` and the coerced
similarity everywhere else. -/
theorem getD_excludeSelf (row : List ℝ) (g j : ℕ) (hj : j < row.length) :
    (excludeSelf row g).getD j ⊥ =
      if g = j then ⊥ else (row.getD j 0 : WithBot ℝ) := by
  rw [List.getD_eq_getElem?_getD, excludeSelf, List.getElem?_set]
  by_cases hgj : g = j
  · rw [if_pos hgj,
      if_pos (show g < (row.map (fun (x : ℝ) => (x : WithBot ℝ))).length by
        rw [List.length_map]; omega)]
    simp [hgj]
  · rw [if_neg hgj, if_neg hgj, List.getElem?_map, List.getElem?_eq_getElem hj,
      List.getD_eq_getElem _ _ hj]
    rfl

/-- Among the indices `0, ..., n-1`, all but `g` itself survive a
"differs from `g`" filter. -/
theorem countP_ne_range (n g : ℕ) (hg : g < n) :
    List.countP (fun j => !(decide (g = j))) (List.range n) = n - 1 := by
  induction n with
  | zero => omega
  | succ m ih =>
      rw [List.range_succ, List.countP_append, List.countP_singleton]
      by_cases hgm : g = m
      · rw [if_neg (by simp [hgm])]
        have hall : List.countP (fun j => !(decide (g = j))) (List.range m) =
            (List.range m).length := by
          rw [List.countP_eq_length]
          intro j hj
          have hjm : j < m := List.mem_range.1 hj
          simp [hgm]
          omega
        rw [hall, List.length_range]
        omega
      · rw [if_pos (by simp [hgm]), ih (by omega)]
        omega

/-- Every row of the similarity matrix has exactly `n - 1` entries above
`⊥` after self-exclusion: the `-inf` written on the diagonal is the unique
bottom entry. -/
theorem countP_excludeSelf (row : List ℝ) (g : ℕ) (hg : g < row.length) :
    (rowPairs ⊥ (excludeSelf row g)).countP (fun q => decide ((⊥ : WithBot ℝ) < q.2)) =
      row.length - 1 := by
  rw [rowPairs, List.countP_map]
  have hstep : List.countP
      ((fun q => decide ((⊥ : WithBot ℝ) < q.2)) ∘
        (fun j => (j, (excludeSelf row g).getD j ⊥)))
      (List.range (excludeSelf row g).length) =
      List.countP (fun j => !(decide (g = j)))
        (List.range (excludeSelf row g).length) := by
    apply List.countP_congr
    intro j hj
    have hjlen : j < row.length := by
      have h2 := List.mem_range.1 hj
      rwa [length_excludeSelf] at h2
    simp only [Function.comp_apply]
    rw [getD_excludeSelf row g j hjlen]
    by_cases hgj : g = j
    · simp [hgj]
    · simp [hgj, WithBot.bot_lt_coe]
  rw [hstep, length_excludeSelf, countP_ne_range row.length g hg]

/-- Core property of the per-row selection (lines 50-62): with `k < n`,
every selected pair points at a column other than `g`, inside the row, and
carries the finite similarity value of that column — the `-inf` diagonal
entry is never selected. -/
theorem mem_topkRow_excludeSelf (row : List ℝ) (g k : ℕ) (hg : g < row.length)
    (hk : k < row.length) (p : ℕ × WithBot ℝ)
    (hp : p ∈ topkRow ⊥ (excludeSelf row g) k) :
    p.1 < row.length ∧ p.1 ≠ g ∧ p.2 = (row.getD p.1 0 : WithBot ℝ) := by
  obtain ⟨hlt, hval⟩ := mem_topkRow _ _ _ _ hp
  rw [length_excludeSelf] at hlt
  have hbot : p.2 ≠ ⊥ := by
    intro hb
    have hpS : p ∈ ((rowPairs ⊥ (excludeSelf row g)).insertionSort descSim).take k := hp
    rcases List.mem_iff_getElem.1 hpS with ⟨i, hi, he⟩
    have hik : i < k := by
      have h2 := hi
      rw [List.length_take] at h2
      omega
    have hiS : i < ((rowPairs ⊥ (excludeSelf row g)).insertionSort descSim).length := by
      have h2 := hi
      rw [List.length_take] at h2
      omega
    have heS : ((rowPairs ⊥ (excludeSelf row g)).insertionSort descSim)[i] = p := by
      rw [← he, List.getElem_take]
    have hcount := sorted_countP_le _ (List.sorted_insertionSort descSim _) i hiS ⊥
      (by rw [heS]; exact hb)
    have hperm : ((rowPairs ⊥ (excludeSelf row g)).insertionSort descSim).countP
        (fun q => decide ((⊥ : WithBot ℝ) < q.2)) =
        (rowPairs ⊥ (excludeSelf row g)).countP
          (fun q => decide ((⊥ : WithBot ℝ) < q.2)) :=
      (List.perm_insertionSort descSim _).countP_eq _
    rw [hperm, countP_excludeSelf row g hg] at hcount
    omega
  have hval2 := hval
  rw [getD_excludeSelf row g p.1 hlt] at hval2
  by_cases hgp : g = p.1
  · rw [if_pos hgp] at hval2
    exact absurd hval2 hbot
  · rw [if_neg hgp] at hval2
    exact ⟨hlt, fun e => hgp e.symm, hval2⟩

theorem length_simsRow (Vn : List (List ℝ)) (g : ℕ) :
    (simsRow Vn g).length = Vn.length := by
  rw [simsRow, List.length_map]

theorem rowEntry_top_keys_length {K : Type} [Inhabited K] (keys : List K)
    (Vn : List (List ℝ)) (k g : ℕ) :
    (rowEntry keys Vn k g).top_keys.length = min k Vn.length := by
  rw [rowEntry]
  simp only [List.length_map]
  rw [length_topkRow, length_excludeSelf, length_simsRow]

theorem rowEntry_similarities_length {K : Type} [Inhabited K] (keys : List K)
    (Vn : List (List ℝ)) (k g : ℕ) :
    (rowEntry keys Vn k g).similarities.length = min k Vn.length := by
  rw [rowEntry]
  simp only [List.length_map]
  rw [length_topkRow, length_excludeSelf, length_simsRow]

/-! ### Normalization lemmas -/

theorem eps_pos : (0 : ℝ) < eps := by norm_num [eps]

theorem clippedNorm_pos (v : List ℝ) : 0 < clippedNorm v :=
  lt_of_lt_of_le eps_pos (le_max_right _ _)

theorem sumSq_cons (x : ℝ) (rest : List ℝ) :
    sumSq (x :: rest) = x ^ 2 + sumSq rest := by
  simp [sumSq]

theorem sumSq_nonneg (v : List ℝ) : 0 ≤ sumSq v := by
  induction v with
  | nil => simp [sumSq]
  | cons x rest ih =>
      rw [sumSq_cons]
      exact add_nonneg (sq_nonneg x) ih

theorem sumSq_eq_zero_of_all_zero (v : List ℝ) (h : ∀ x ∈ v, x = 0) :
    sumSq v = 0 := by
  induction v with
  | nil => simp [sumSq]
  | cons x rest ih =>
      rw [sumSq_cons, h x (List.mem_cons_self x rest),
        ih (fun y hy => h y (List.mem_cons_of_mem _ hy))]
      ring

theorem norm2_nonneg (v : List ℝ) : 0 ≤ norm2 v := Real.sqrt_nonneg _

theorem norm2_zero_of_all_zero (v : List ℝ) (h : ∀ x ∈ v, x = 0) :
    norm2 v = 0 := by
  rw [norm2, sumSq_eq_zero_of_all_zero v h, Real.sqrt_zero]

/-- The clip at line 40 replaces any norm below the floor by the floor. -/
theorem clippedNorm_of_lt (v : List ℝ) (h : norm2 v < eps) : clippedNorm v = eps :=
  max_eq_right h.le

theorem clippedNorm_of_le (v : List ℝ) (h : eps ≤ norm2 v) : clippedNorm v = norm2 v :=
  max_eq_left h

theorem sumSq_map_mul (c : ℝ) (v : List ℝ) :
    sumSq (v.map (fun x => c * x)) = c ^ 2 * sumSq v := by
  induction v with
  | nil => simp [sumSq]
  | cons x rest ih =>
      rw [List.map_cons, sumSq_cons, sumSq_cons, ih]
      ring

theorem norm2_map_mul (c : ℝ) (hc : 0 ≤ c) (v : List ℝ) :
    norm2 (v.map (fun x => c * x)) = c * norm2 v := by
  rw [norm2, norm2, sumSq_map_mul, Real.sqrt_mul (sq_nonneg c), Real.sqrt_sq hc]

/-- As long as neither the original nor the scaled norm hits the clip floor,
normalization absorbs a positive scalar factor exactly. -/
theorem normalize_scale (c : ℝ) (hc : 0 < c) (v : List ℝ) (h1 : eps ≤ norm2 v)
    (h2 : eps ≤ c * norm2 v) :
    normalize (v.map (fun x => c * x)) = normalize v := by
  have hcn : clippedNorm (v.map (fun x => c * x)) = c * norm2 v := by
    rw [clippedNorm, norm2_map_mul c hc.le, max_eq_left h2]
  rw [normalize, normalize, List.map_map]
  apply List.map_congr_left
  intro x _
  simp only [Function.comp_apply]
  rw [hcn, clippedNorm_of_le v h1]
  exact mul_div_mul_left x (norm2 v) (ne_of_gt hc)

theorem norm2_singleton (x : ℝ) (hx : 0 ≤ x) : norm2 [x] = x := by
  have h : sumSq [x] = x ^ 2 := by simp [sumSq]
  rw [norm2, h, Real.sqrt_sq hx]

theorem normalize_singleton_ge (x : ℝ) (hx : eps ≤ x) : normalize [x] = [1] := by
  have h0 : (0 : ℝ) ≤ x := le_trans eps_pos.le hx
  have hne : x ≠ 0 := ne_of_gt (lt_of_lt_of_le eps_pos hx)
  rw [normalize, clippedNorm, norm2_singleton x h0, max_eq_left hx]
  simp [div_self hne]

theorem normalize_singleton_le (x : ℝ) (h0 : 0 ≤ x) (hx : x ≤ eps) :
    normalize [x] = [x / eps] := by
  rw [normalize, clippedNorm, norm2_singleton x h0, max_eq_right hx]
  simp

/-- Unfolding of `compute_topk_similarities` on valid input: the guards at
lines 33-36 pass and the result is the accumulated dict. -/
theorem compute_ok {K : Type} [DecidableEq K] [Inhabited K] (keys : List K)
    (vectors : List (List ℝ)) (k : ℤ) (bs : ℕ)
    (hlen : keys.length = vectors.length) (hk0 : 0 < k)
    (hkn : k < (vectors.length : ℤ)) :
    compute_topk_similarities keys vectors k bs =
      .ok (buildWith (fun g => keys.getD g default)
        (fun g => rowEntry keys (vectors.map normalize) k.toNat g)
        (procFrom vectors.length bs 0)) := by
  unfold compute_topk_similarities
  rw [if_neg (fun h => h hlen), if_neg (not_not_intro ⟨hk0, hkn⟩)]

theorem rowEntry_top_keys_def {K : Type} [Inhabited K] (keys : List K)
    (Vn : List (List ℝ)) (k g : ℕ) :
    (rowEntry keys Vn k g).top_keys =
      (topkRow ⊥ (excludeSelf (simsRow Vn g) g) k).map
        (fun p => keys.getD p.1 default) := rfl

theorem rowEntry_similarities_def {K : Type} [Inhabited K] (keys : List K)
    (Vn : List (List ℝ)) (k g : ℕ) :
    (rowEntry keys Vn k g).similarities =
      (topkRow ⊥ (excludeSelf (simsRow Vn g) g) k).map (fun p => p.2) := rfl

theorem getD_simsRow (Vn : List (List ℝ)) (g j : ℕ) (hj : j < Vn.length) :
    (simsRow Vn g).getD j 0 = dot (Vn.getD g []) (Vn.getD j []) := by
  rw [List.getD_eq_getElem?_getD, simsRow, List.getElem?_map,
    List.getElem?_eq_getElem hj, List.getD_eq_getElem _ _ hj]
  rfl

/-! ### C1: no self-match -/

/-- C1: for every input with unique keys, `len(keys)` equal to the number
of vector rows, `0 < k < n` (and a positive batch size, the contract of
`batch_size`), the mapping returned by `compute_topk_similarities` never
lists a key as its own neighbor: the `-inf` written on the diagonal before
top-k selection keeps the own column out of every `top_keys` list. -/
theorem topk_no_self_match {K : Type} [DecidableEq K] [Inhabited K]
    (keys : List K) (vectors : List (List ℝ)) (k : ℤ) (bs : ℕ)
    (hnd : keys.Nodup) (hlen : keys.length = vectors.length)
    (hk0 : 0 < k) (hkn : k < (vectors.length : ℤ)) (hbs : 0 < bs) :
    ∃ r, compute_topk_similarities keys vectors k bs = .ok r ∧
      ∀ key e, (key, e) ∈ r → key ∉ e.top_keys := by
  refine ⟨_, compute_ok keys vectors k bs hlen hk0 hkn, ?_⟩
  intro key e hmem hbad
  rcases mem_buildWith _ _ _ _ hmem with ⟨g, hg, he⟩
  have hgn : g < vectors.length := by
    rw [procFrom_eq_range _ _ hbs] at hg
    exact List.mem_range.1 hg
  have hkey : key = keys.getD g default := congrArg Prod.fst he
  have hent : e = rowEntry keys (vectors.map normalize) k.toNat g :=
    congrArg Prod.snd he
  rw [hent, rowEntry_top_keys_def] at hbad
  rcases List.mem_map.1 hbad with ⟨p, hp, hpe⟩
  have hrow : (simsRow (vectors.map normalize) g).length = vectors.length := by
    rw [length_simsRow, List.length_map]
  have hsel := mem_topkRow_excludeSelf (simsRow (vectors.map normalize) g) g k.toNat
    (by rw [hrow]; exact hgn) (by rw [hrow]; omega) p hp
  have hp1 : p.1 < keys.length := by rw [hlen]; exact hrow ▸ hsel.1
  have hgk : g < keys.length := by rw [hlen]; exact hgn
  have heq : keys.getD p.1 default = keys.getD g default := by rw [hpe, hkey]
  rw [List.getD_eq_getElem _ _ hp1, List.getD_eq_getElem _ _ hgk] at heq
  exact hsel.2.1 ((hnd.getElem_inj_iff).1 heq)

/-- C1 witness. -/
theorem topk_no_self_match_witness :
    (([0, 1] : List ℕ).Nodup ∧
      ([0, 1] : List ℕ).length = ([[1], [2]] : List (List ℝ)).length ∧
      (0 : ℤ) < 1 ∧ (1 : ℤ) < (([[1], [2]] : List (List ℝ)).length : ℤ) ∧ 0 < 1) ∧
    ∃ r, compute_topk_similarities ([0, 1] : List ℕ) ([[1], [2]] : List (List ℝ)) 1 1 =
        .ok r ∧ ∀ key e, (key, e) ∈ r → key ∉ e.top_keys :=
  ⟨⟨by decide, rfl, by norm_num, by norm_num, by norm_num⟩,
    topk_no_self_match [0, 1] [[1], [2]] 1 1 (by decide) rfl (by norm_num)
      (by norm_num) (by norm_num)⟩

/-! ### C2: cardinality -/

/-- C2: on valid input (unique keys, matching lengths, `0 < k < n`,
positive batch size) the result dict has exactly `n` entries, one per key,
and every entry's `top_keys` and `similarities` lists have length exactly
`k`. -/
theorem topk_cardinality {K : Type} [DecidableEq K] [Inhabited K]
    (keys : List K) (vectors : List (List ℝ)) (k : ℤ) (bs : ℕ)
    (hnd : keys.Nodup) (hlen : keys.length = vectors.length)
    (hk0 : 0 < k) (hkn : k < (vectors.length : ℤ)) (hbs : 0 < bs) :
    ∃ r, compute_topk_similarities keys vectors k bs = .ok r ∧
      r.length = vectors.length ∧
      (∀ g, g < vectors.length → keys.getD g default ∈ r.map Prod.fst) ∧
      ∀ key e, (key, e) ∈ r →
        (e.top_keys.length : ℤ) = k ∧ (e.similarities.length : ℤ) = k := by
  refine ⟨_, compute_ok keys vectors k bs hlen hk0 hkn, ?_, ?_, ?_⟩
  · rw [procFrom_eq_range _ _ hbs]
    rw [buildWith_eq_map _ _ _ ?hinj (List.nodup_range _)]
    · rw [List.length_map, List.length_range]
    case hinj =>
      intro g1 h1 g2 h2 he
      have hg1 : g1 < keys.length := by rw [hlen]; exact List.mem_range.1 h1
      have hg2 : g2 < keys.length := by rw [hlen]; exact List.mem_range.1 h2
      rw [List.getD_eq_getElem _ _ hg1, List.getD_eq_getElem _ _ hg2] at he
      exact (hnd.getElem_inj_iff).1 he
  · intro g hg
    rw [mem_map_fst_buildWith, procFrom_eq_range _ _ hbs]
    exact ⟨g, List.mem_range.2 hg, rfl⟩
  · intro key e hmem
    rcases mem_buildWith _ _ _ _ hmem with ⟨g, hg, he⟩
    have hent : e = rowEntry keys (vectors.map normalize) k.toNat g :=
      congrArg Prod.snd he
    have hmin : min k.toNat (vectors.map normalize).length = k.toNat := by
      rw [List.length_map]
      omega
    constructor
    · rw [hent, rowEntry_top_keys_length, hmin]
      omega
    · rw [hent, rowEntry_similarities_length, hmin]
      omega

/-- C2 witness. -/
theorem topk_cardinality_witness :
    (([3, 7] : List ℕ).Nodup ∧
      ([3, 7] : List ℕ).length = ([[1], [2]] : List (List ℝ)).length ∧
      (0 : ℤ) < 1 ∧ (1 : ℤ) < (([[1], [2]] : List (List ℝ)).length : ℤ) ∧ 0 < 1) ∧
    ∃ r, compute_topk_similarities ([3, 7] : List ℕ) ([[1], [2]] : List (List ℝ)) 1 1 =
        .ok r ∧ r.length = ([[1], [2]] : List (List ℝ)).length ∧
      (∀ g, g < ([[1], [2]] : List (List ℝ)).length →
        ([3, 7] : List ℕ).getD g default ∈ r.map Prod.fst) ∧
      ∀ key e, (key, e) ∈ r →
        (e.top_keys.length : ℤ) = 1 ∧ (e.similarities.length : ℤ) = 1 :=
  ⟨⟨by decide, rfl, by norm_num, by norm_num, by norm_num⟩,
    topk_cardinality [3, 7] [[1], [2]] 1 1 (by decide) rfl (by norm_num)
      (by norm_num) (by norm_num)⟩

/-! ### C3: descending order and key-similarity correspondence -/

/-- C3: on valid input, every entry's `similarities` list is sorted
non-increasingly (`similarities[i+1] ≤ similarities[i]`), and each
`top_keys[i]` is the key of the column whose cosine similarity against the
entry's own row is `similarities[i]`. -/
theorem topk_descending_order {K : Type} [DecidableEq K] [Inhabited K]
    (keys : List K) (vectors : List (List ℝ)) (k : ℤ) (bs : ℕ)
    (_hnd : keys.Nodup) (hlen : keys.length = vectors.length)
    (hk0 : 0 < k) (hkn : k < (vectors.length : ℤ)) (hbs : 0 < bs) :
    ∃ r, compute_topk_similarities keys vectors k bs = .ok r ∧
      ∀ key e, (key, e) ∈ r →
        (∀ i, i + 1 < e.similarities.length →
          e.similarities.getD (i + 1) ⊥ ≤ e.similarities.getD i ⊥) ∧
        ∃ g, g < vectors.length ∧ key = keys.getD g default ∧
          ∀ i, i < e.top_keys.length → ∃ j, j < vectors.length ∧ j ≠ g ∧
            e.top_keys.getD i default = keys.getD j default ∧
            e.similarities.getD i ⊥ =
              ((dot ((vectors.map normalize).getD g [])
                ((vectors.map normalize).getD j [])) : WithBot ℝ) := by
  refine ⟨_, compute_ok keys vectors k bs hlen hk0 hkn, ?_⟩
  intro key e hmem
  rcases mem_buildWith _ _ _ _ hmem with ⟨g, hg, he⟩
  have hgn : g < vectors.length := by
    rw [procFrom_eq_range _ _ hbs] at hg
    exact List.mem_range.1 hg
  have hkey : key = keys.getD g default := congrArg Prod.fst he
  have hent : e = rowEntry keys (vectors.map normalize) k.toNat g :=
    congrArg Prod.snd he
  have hrow : (simsRow (vectors.map normalize) g).length = vectors.length := by
    rw [length_simsRow, List.length_map]
  constructor
  · intro i hi1
    rw [hent, rowEntry_similarities_def] at hi1 ⊢
    have hpair : ((topkRow ⊥ (excludeSelf (simsRow (vectors.map normalize) g) g)
        k.toNat).map (fun p => p.2)).Pairwise
        (fun a b : WithBot ℝ => b ≤ a) := by
      rw [List.pairwise_map]
      exact sorted_topkRow _ _ _
    have hle := List.pairwise_iff_getElem.1 hpair i (i + 1) (by omega) hi1 (by omega)
    rw [List.getD_eq_getElem _ _ hi1, List.getD_eq_getElem _ _ (by omega :
      i < ((topkRow ⊥ (excludeSelf (simsRow (vectors.map normalize) g) g)
        k.toNat).map (fun p => p.2)).length)]
    exact hle
  · refine ⟨g, hgn, hkey, ?_⟩
    intro i hi
    have him : i < ((topkRow ⊥ (excludeSelf (simsRow (vectors.map normalize) g) g)
        k.toNat).map (fun p => keys.getD p.1 default)).length := by
      rw [hent, rowEntry_top_keys_def] at hi
      exact hi
    have hiS : i < (topkRow ⊥ (excludeSelf (simsRow (vectors.map normalize) g) g)
        k.toNat).length := by
      rw [List.length_map] at him
      exact him
    have hpmem : (topkRow ⊥ (excludeSelf (simsRow (vectors.map normalize) g) g)
        k.toNat)[i] ∈ topkRow ⊥ (excludeSelf (simsRow (vectors.map normalize) g) g)
        k.toNat := List.getElem_mem hiS
    have hsel := mem_topkRow_excludeSelf _ g k.toNat (by rw [hrow]; exact hgn)
      (by rw [hrow]; omega) _ hpmem
    have hj : (topkRow ⊥ (excludeSelf (simsRow (vectors.map normalize) g) g)
        k.toNat)[i].1 < (vectors.map normalize).length := by
      rw [List.length_map]
      exact hrow ▸ hsel.1
    refine ⟨_, hrow ▸ hsel.1, hsel.2.1, ?_, ?_⟩
    · rw [hent, rowEntry_top_keys_def, List.getD_eq_getElem _ _ him,
        List.getElem_map]
    · have him2 : i < ((topkRow ⊥ (excludeSelf (simsRow (vectors.map normalize) g) g)
          k.toNat).map (fun p => p.2)).length := by
        rw [List.length_map]
        exact hiS
      rw [hent, rowEntry_similarities_def, List.getD_eq_getElem _ _ him2,
        List.getElem_map, hsel.2.2, getD_simsRow _ _ _ hj]

/-- C3 witness. -/
theorem topk_descending_order_witness :
    (([2, 5] : List ℕ).Nodup ∧
      ([2, 5] : List ℕ).length = ([[1], [2]] : List (List ℝ)).length ∧
      (0 : ℤ) < 1 ∧ (1 : ℤ) < (([[1], [2]] : List (List ℝ)).length : ℤ) ∧ 0 < 1) ∧
    ∃ r, compute_topk_similarities ([2, 5] : List ℕ) ([[1], [2]] : List (List ℝ)) 1 1 =
        .ok r ∧
      ∀ key e, (key, e) ∈ r →
        (∀ i, i + 1 < e.similarities.length →
          e.similarities.getD (i + 1) ⊥ ≤ e.similarities.getD i ⊥) ∧
        ∃ g, g < ([[1], [2]] : List (List ℝ)).length ∧
          key = ([2, 5] : List ℕ).getD g default ∧
          ∀ i, i < e.top_keys.length → ∃ j,
            j < ([[1], [2]] : List (List ℝ)).length ∧ j ≠ g ∧
            e.top_keys.getD i default = ([2, 5] : List ℕ).getD j default ∧
            e.similarities.getD i ⊥ =
              ((dot ((([[1], [2]] : List (List ℝ)).map normalize).getD g [])
                ((([[1], [2]] : List (List ℝ)).map normalize).getD j [])) : WithBot ℝ) :=
  ⟨⟨by decide, rfl, by norm_num, by norm_num, by norm_num⟩,
    topk_descending_order [2, 5] [[1], [2]] 1 1 (by decide) rfl (by norm_num)
      (by norm_num) (by norm_num)⟩

/-! ### C5: batch invariance -/

/-- C5: on valid input, the result is literally identical for any two
positive batch sizes — in the exact-arithmetic embedding the per-row
computation does not depend on the batch partition at all. -/
theorem topk_batch_invariance {K : Type} [DecidableEq K] [Inhabited K]
    (keys : List K) (vectors : List (List ℝ)) (k : ℤ) (b1 b2 : ℕ)
    (_hnd : keys.Nodup) (hlen : keys.length = vectors.length)
    (hk0 : 0 < k) (hkn : k < (vectors.length : ℤ))
    (hb1 : 0 < b1) (hb2 : 0 < b2) :
    compute_topk_similarities keys vectors k b1 =
      compute_topk_similarities keys vectors k b2 := by
  rw [compute_ok keys vectors k b1 hlen hk0 hkn,
    compute_ok keys vectors k b2 hlen hk0 hkn,
    procFrom_eq_range _ _ hb1, procFrom_eq_range _ _ hb2]

/-- C5 witness. -/
theorem topk_batch_invariance_witness :
    (([4, 9] : List ℕ).Nodup ∧
      ([4, 9] : List ℕ).length = ([[1], [2]] : List (List ℝ)).length ∧
      (0 : ℤ) < 1 ∧ (1 : ℤ) < (([[1], [2]] : List (List ℝ)).length : ℤ) ∧
      0 < 1 ∧ 0 < 2) ∧
    compute_topk_similarities ([4, 9] : List ℕ) ([[1], [2]] : List (List ℝ)) 1 1 =
      compute_topk_similarities ([4, 9] : List ℕ) ([[1], [2]] : List (List ℝ)) 1 2 :=
  ⟨⟨by decide, rfl, by norm_num, by norm_num, by norm_num, by norm_num⟩,
    topk_batch_invariance [4, 9] [[1], [2]] 1 1 2 (by decide) rfl (by norm_num)
      (by norm_num) (by norm_num) (by norm_num)⟩

/-! ### C10: duplicate keys are silently collapsed -/

/-- C10: with duplicate keys (lengths still matching, `0 < k < n`) no error
is raised; the returned dict has strictly fewer than `n` entries, and the
entry stored under a duplicated key is the one computed for its last
occurrence (each later row overwrites the earlier one at line 68). -/
theorem topk_duplicate_keys {K : Type} [DecidableEq K] [Inhabited K]
    (keys : List K) (vectors : List (List ℝ)) (k : ℤ) (bs : ℕ)
    (hdup : ¬ keys.Nodup) (hlen : keys.length = vectors.length)
    (hk0 : 0 < k) (hkn : k < (vectors.length : ℤ)) (hbs : 0 < bs) :
    ∃ r, compute_topk_similarities keys vectors k bs = .ok r ∧
      r.length < vectors.length ∧
      ∀ g, g < vectors.length →
        (∀ j, g < j → j < vectors.length →
          keys.getD j default ≠ keys.getD g default) →
        dictLookup r (keys.getD g default) =
          some (rowEntry keys (vectors.map normalize) k.toNat g) := by
  refine ⟨_, compute_ok keys vectors k bs hlen hk0 hkn, ?_, ?_⟩
  · have hnd1 := nodup_map_fst_buildWith (fun g => keys.getD g default)
      (fun g => rowEntry keys (vectors.map normalize) k.toNat g)
      (procFrom vectors.length bs 0)
    have hsub : ∀ a, a ∈ (buildWith (fun g => keys.getD g default)
        (fun g => rowEntry keys (vectors.map normalize) k.toNat g)
        (procFrom vectors.length bs 0)).map Prod.fst ↔ a ∈ keys := by
      intro a
      rw [mem_map_fst_buildWith, procFrom_eq_range _ _ hbs]
      constructor
      · rintro ⟨g, hg, he⟩
        have hgn : g < keys.length := by
          rw [hlen]
          exact List.mem_range.1 hg
        rw [← he, List.getD_eq_getElem _ _ hgn]
        exact List.getElem_mem hgn
      · intro ha
        rcases List.mem_iff_getElem.1 ha with ⟨g, hg, he⟩
        refine ⟨g, List.mem_range.2 (by omega), ?_⟩
        rw [List.getD_eq_getElem _ _ hg]
        exact he
    have hfin : ((buildWith (fun g => keys.getD g default)
        (fun g => rowEntry keys (vectors.map normalize) k.toNat g)
        (procFrom vectors.length bs 0)).map Prod.fst).toFinset = keys.toFinset := by
      ext a
      rw [List.mem_toFinset, List.mem_toFinset, hsub a]
    have hcard1 := List.toFinset_card_of_nodup hnd1
    have hcard2 := List.card_toFinset keys
    have hdlt : keys.dedup.length < keys.length := by
      rcases Nat.lt_or_ge keys.dedup.length keys.length with h | h
      · exact h
      · exfalso
        have hsubl : keys.dedup.Sublist keys := List.dedup_sublist keys
        have heq : keys.dedup = keys :=
          hsubl.eq_of_length (le_antisymm hsubl.length_le h)
        exact hdup (heq ▸ List.nodup_dedup keys)
    have hlm := List.length_map (buildWith (fun g => keys.getD g default)
        (fun g => rowEntry keys (vectors.map normalize) k.toNat g)
        (procFrom vectors.length bs 0)) Prod.fst
    rw [hfin] at hcard1
    omega
  · intro g hg hlast
    rw [procFrom_eq_range _ _ hbs]
    exact dictLookup_buildWith_range _ _ vectors.length g hg hlast

/-- C10 witness: the key `0` occurs at rows 0 and 2; the dict keeps one
entry per distinct key and key `0` maps to the row-2 entry. -/
theorem topk_duplicate_keys_witness :
    (¬ ([0, 1, 0] : List ℕ).Nodup ∧
      ([0, 1, 0] : List ℕ).length = ([[1], [2], [3]] : List (List ℝ)).length ∧
      (0 : ℤ) < 1 ∧ (1 : ℤ) < (([[1], [2], [3]] : List (List ℝ)).length : ℤ) ∧
      0 < 1) ∧
    ∃ r, compute_topk_similarities ([0, 1, 0] : List ℕ)
        ([[1], [2], [3]] : List (List ℝ)) 1 1 = .ok r ∧
      r.length < ([[1], [2], [3]] : List (List ℝ)).length ∧
      ∀ g, g < ([[1], [2], [3]] : List (List ℝ)).length →
        (∀ j, g < j → j < ([[1], [2], [3]] : List (List ℝ)).length →
          ([0, 1, 0] : List ℕ).getD j default ≠ ([0, 1, 0] : List ℕ).getD g default) →
        dictLookup r (([0, 1, 0] : List ℕ).getD g default) =
          some (rowEntry [0, 1, 0] (([[1], [2], [3]] : List (List ℝ)).map normalize)
            (1 : ℤ).toNat g) :=
  ⟨⟨by decide, rfl, by norm_num, by norm_num, by norm_num⟩,
    topk_duplicate_keys [0, 1, 0] [[1], [2], [3]] 1 1 (by decide) rfl
      (by norm_num) (by norm_num) (by norm_num)⟩

/-! ### C7: zero-vector safety -/

/-- C7: a valid input containing an all-zero vector raises nothing and
every returned similarity value is a finite real, never the `-inf`
sentinel (and `NaN`/`Inf` cannot arise in the exact-real embedding: the
normalizing divisor is clipped to at least `1e-10` before the division, as
the first two conjuncts record, so no division by zero happens). -/
theorem topk_zero_vector_safe {K : Type} [DecidableEq K] [Inhabited K]
    (keys : List K) (vectors : List (List ℝ)) (k : ℤ) (bs : ℕ)
    (hlen : keys.length = vectors.length) (hk0 : 0 < k)
    (hkn : k < (vectors.length : ℤ)) (hbs : 0 < bs)
    (_hzero : ∃ v ∈ vectors, ∀ x ∈ v, x = 0) :
    (∀ v ∈ vectors, (∀ x ∈ v, x = 0) → clippedNorm v = eps) ∧
    (∀ v : List ℝ, 0 < clippedNorm v) ∧
    ∃ r, compute_topk_similarities keys vectors k bs = .ok r ∧
      ∀ key e, (key, e) ∈ r → ∀ s ∈ e.similarities,
        ∃ x : ℝ, s = (x : WithBot ℝ) := by
  refine ⟨?_, clippedNorm_pos, _, compute_ok keys vectors k bs hlen hk0 hkn, ?_⟩
  · intro v _ hv
    exact clippedNorm_of_lt v (by rw [norm2_zero_of_all_zero v hv]; exact eps_pos)
  · intro key e hmem s hs
    rcases mem_buildWith _ _ _ _ hmem with ⟨g, hg, he⟩
    have hgn : g < vectors.length := by
      rw [procFrom_eq_range _ _ hbs] at hg
      exact List.mem_range.1 hg
    have hent : e = rowEntry keys (vectors.map normalize) k.toNat g :=
      congrArg Prod.snd he
    rw [hent, rowEntry_similarities_def] at hs
    rcases List.mem_map.1 hs with ⟨p, hp, hpe⟩
    have hrow : (simsRow (vectors.map normalize) g).length = vectors.length := by
      rw [length_simsRow, List.length_map]
    have hsel := mem_topkRow_excludeSelf _ g k.toNat (by rw [hrow]; exact hgn)
      (by rw [hrow]; omega) p hp
    exact ⟨_, by rw [← hpe, hsel.2.2]⟩

/-- C7 witness: the first vector is all-zero. -/
theorem topk_zero_vector_safe_witness :
    (([0, 1] : List ℕ).length = ([[0], [1]] : List (List ℝ)).length ∧
      (0 : ℤ) < 1 ∧ (1 : ℤ) < (([[0], [1]] : List (List ℝ)).length : ℤ) ∧ 0 < 1 ∧
      ∃ v ∈ ([[0], [1]] : List (List ℝ)), ∀ x ∈ v, x = 0) ∧
    ((∀ v ∈ ([[0], [1]] : List (List ℝ)), (∀ x ∈ v, x = 0) → clippedNorm v = eps) ∧
      (∀ v : List ℝ, 0 < clippedNorm v) ∧
      ∃ r, compute_topk_similarities ([0, 1] : List ℕ)
          ([[0], [1]] : List (List ℝ)) 1 1 = .ok r ∧
        ∀ key e, (key, e) ∈ r → ∀ s ∈ e.similarities,
          ∃ x : ℝ, s = (x : WithBot ℝ)) :=
  ⟨⟨rfl, by norm_num, by norm_num, by norm_num, ⟨[0], by simp, by simp⟩⟩,
    topk_zero_vector_safe [0, 1] [[0], [1]] 1 1 rfl (by norm_num) (by norm_num)
      (by norm_num) ⟨[0], by simp, by simp⟩⟩

/-! ### C4: the parameter guard (corrected) -/

/-- C4 counterexample to the claim as stated: calling with a keys/vectors
length mismatch does raise, but the raised error is the `AssertionError`
`"Keys length must match vectors count"` — a different exception kind from
the `ValueError` used for `k` violations, and its message contains no
digit at all, hence states neither the valid range nor the offending
value. -/
theorem topk_error_message_counterexample :
    compute_topk_similarities ([0] : List ℕ) ([[1], [2]] : List (List ℝ)) 1 1 =
      .error (.assertionError "Keys length must match vectors count") ∧
    (∀ ch ∈ "Keys length must match vectors count".toList, ¬ ch.isDigit) ∧
    ∀ msg, SimError.assertionError "Keys length must match vectors count" ≠
      SimError.valueError msg := by
  refine ⟨?_, by decide, fun msg h => SimError.noConfusion h⟩
  rw [compute_topk_similarities, if_pos (by norm_num)]

/-- C4 (amended): a keys/vectors length mismatch raises the fixed-message
`AssertionError` before anything else; with matching lengths, `k ≤ 0` or
`k ≥ n` raises a `ValueError` whose message states the valid range (`0`
and `n`) and the offending `k`; in both cases the error is the entire
outcome — no partial result exists; and `k = n - 1` (with `n ≥ 2`)
succeeds. -/
theorem topk_error_guard {K : Type} [DecidableEq K] [Inhabited K]
    (keys : List K) (vectors : List (List ℝ)) (k : ℤ) (bs : ℕ) :
    (keys.length ≠ vectors.length →
      compute_topk_similarities keys vectors k bs =
        .error (.assertionError "Keys length must match vectors count")) ∧
    (keys.length = vectors.length → ¬(0 < k ∧ k < (vectors.length : ℤ)) →
      compute_topk_similarities keys vectors k bs =
        .error (.valueError
          ("k must be greater than 0 and less than the number of vectors ("
            ++ toString vectors.length ++ "). Got k=" ++ toString k))) ∧
    (keys.length = vectors.length → 0 < k → k = (vectors.length : ℤ) - 1 →
      ∃ r, compute_topk_similarities keys vectors k bs = .ok r) := by
  refine ⟨?_, ?_, ?_⟩
  · intro h
    rw [compute_topk_similarities, if_pos h]
  · intro h1 h2
    rw [compute_topk_similarities, if_neg (fun hne => hne h1), if_pos h2]
  · intro h1 h2 h3
    exact ⟨_, compute_ok keys vectors k bs h1 h2 (by omega)⟩

/-- C4 witness: a mismatch case, an out-of-range `k` case (with the exact
message), and a succeeding `k = n - 1` case. -/
theorem topk_error_guard_witness :
    (([0] : List ℕ).length ≠ ([[1], [2]] : List (List ℝ)).length ∧
      compute_topk_similarities ([0] : List ℕ) ([[1], [2]] : List (List ℝ)) 5 1 =
        .error (.assertionError "Keys length must match vectors count")) ∧
    (¬(0 < (5 : ℤ) ∧ (5 : ℤ) < (([[1], [2]] : List (List ℝ)).length : ℤ)) ∧
      compute_topk_similarities ([0, 1] : List ℕ) ([[1], [2]] : List (List ℝ)) 5 1 =
        .error (.valueError
          ("k must be greater than 0 and less than the number of vectors ("
            ++ toString ([[1], [2]] : List (List ℝ)).length ++ "). Got k="
            ++ toString (5 : ℤ)))) ∧
    ((5 : ℤ) ≤ 0 ∨ (([[1], [2]] : List (List ℝ)).length : ℤ) ≤ 5) ∧
    ∃ r, compute_topk_similarities ([0, 1] : List ℕ)
        ([[1], [2]] : List (List ℝ)) 1 1 = .ok r := by
  refine ⟨⟨by norm_num, (topk_error_guard [0] [[1], [2]] 5 1).1 (by norm_num)⟩,
    ⟨by norm_num, (topk_error_guard [0, 1] [[1], [2]] 5 1).2.1 rfl (by norm_num)⟩,
    by norm_num,
    (topk_error_guard [0, 1] [[1], [2]] 1 1).2.2 rfl (by norm_num) (by norm_num)⟩

/-! ### C9: cache load failure behaviour (corrected) -/

/-- C9 counterexample to the claim as stated: a missing file and a corrupt
file do not surface as two distinct error kinds — `load_similarities_from_pkl`
catches both exceptions internally and returns the very same ordinary
value `None` in both cases; nothing is raised to the caller. -/
theorem load_pkl_counterexample :
    load_similarities_from_pkl (FileState.missing : FileState (List (ℕ × Entry ℕ))) =
      none ∧
    load_similarities_from_pkl (FileState.corrupt : FileState (List (ℕ × Entry ℕ))) =
      none ∧
    load_similarities_from_pkl (FileState.missing : FileState (List (ℕ × Entry ℕ))) =
      load_similarities_from_pkl (FileState.corrupt : FileState (List (ℕ × Entry ℕ))) :=
  ⟨rfl, rfl, rfl⟩

/-- C9 (amended): loading from a missing path returns `None` (after logging),
and so does loading a corrupt file — the two failures are indistinguishable
to the caller; a readable file returns its data; and the downstream writer
`save_similarities_to_neo4j` treats `None` (or an empty dict) as "no data"
and returns early instead of crashing. -/
theorem load_pkl_failure_behavior :
    load_similarities_from_pkl (FileState.missing : FileState (List (ℕ × Entry ℕ))) =
      none ∧
    load_similarities_from_pkl (FileState.corrupt : FileState (List (ℕ × Entry ℕ))) =
      none ∧
    (∀ d : List (ℕ × Entry ℕ), load_similarities_from_pkl (FileState.good d) = some d) ∧
    save_similarities_proceeds (K := ℕ) none = false ∧
    ∀ r : List (ℕ × Entry ℕ), save_similarities_proceeds (some r) = true ↔ r ≠ [] := by
  refine ⟨rfl, rfl, fun d => rfl, rfl, fun r => ?_⟩
  rw [save_similarities_proceeds]
  simp

/-- C9 witness. -/
theorem load_pkl_failure_behavior_witness :
    load_similarities_from_pkl
        (FileState.good ([(5, Entry.mk [7] [])] : List (ℕ × Entry ℕ))) =
      some [(5, Entry.mk [7] [])] ∧
    (save_similarities_proceeds (some ([(5, Entry.mk [7] [])] : List (ℕ × Entry ℕ))) =
        true ↔ ([(5, Entry.mk [7] [])] : List (ℕ × Entry ℕ)) ≠ []) :=
  ⟨load_pkl_failure_behavior.2.2.1 [(5, Entry.mk [7] [])],
    load_pkl_failure_behavior.2.2.2.2 [(5, Entry.mk [7] [])]⟩

/-! ### C6: scale invariance (corrected — the clip floor breaks it) -/

theorem dot_single (a b : ℝ) : dot [a] [b] = a * b := by
  simp [dot]

theorem topkRow_two_bot_left (y : ℝ) :
    topkRow ⊥ [⊥, (y : WithBot ℝ)] 1 = [(1, (y : WithBot ℝ))] := by
  have h1 : rowPairs ⊥ [⊥, (y : WithBot ℝ)] =
      [((0 : ℕ), (⊥ : WithBot ℝ)), (1, (y : WithBot ℝ))] := rfl
  rw [topkRow, h1]
  have h2 : List.insertionSort descSim
      [((0 : ℕ), (⊥ : WithBot ℝ)), (1, (y : WithBot ℝ))] =
      [((1 : ℕ), (y : WithBot ℝ)), (0, (⊥ : WithBot ℝ))] := by
    simp only [List.insertionSort, List.orderedInsert]
    rw [if_neg (show ¬ descSim ((0 : ℕ), (⊥ : WithBot ℝ)) (1, (y : WithBot ℝ)) from
      fun hle => WithBot.not_coe_le_bot y hle)]
  rw [h2]
  rfl

theorem topkRow_two_bot_right (x : ℝ) :
    topkRow ⊥ [(x : WithBot ℝ), ⊥] 1 = [(0, (x : WithBot ℝ))] := by
  have h1 : rowPairs ⊥ [(x : WithBot ℝ), ⊥] =
      [((0 : ℕ), (x : WithBot ℝ)), (1, (⊥ : WithBot ℝ))] := rfl
  rw [topkRow, h1]
  have h2 : List.insertionSort descSim
      [((0 : ℕ), (x : WithBot ℝ)), (1, (⊥ : WithBot ℝ))] =
      [((0 : ℕ), (x : WithBot ℝ)), (1, (⊥ : WithBot ℝ))] := by
    simp only [List.insertionSort, List.orderedInsert]
    rw [if_pos (show descSim ((0 : ℕ), (x : WithBot ℝ)) (1, (⊥ : WithBot ℝ)) from
      bot_le)]
  rw [h2]
  rfl

theorem rowEntry_two_0 (keys : List ℕ) (u w : ℝ) :
    rowEntry keys [[u], [w]] 1 0 =
      ⟨[keys.getD 1 default], [((dot [u] [w] : ℝ) : WithBot ℝ)]⟩ := by
  have hex : excludeSelf (simsRow [[u], [w]] 0) 0 =
      [⊥, ((dot [u] [w] : ℝ) : WithBot ℝ)] := rfl
  rw [rowEntry, hex, topkRow_two_bot_left (dot [u] [w])]
  rfl

theorem rowEntry_two_1 (keys : List ℕ) (u w : ℝ) :
    rowEntry keys [[u], [w]] 1 1 =
      ⟨[keys.getD 0 default], [((dot [w] [u] : ℝ) : WithBot ℝ)]⟩ := by
  have hex : excludeSelf (simsRow [[u], [w]] 1) 1 =
      [((dot [w] [u] : ℝ) : WithBot ℝ), ⊥] := rfl
  rw [rowEntry, hex, topkRow_two_bot_right (dot [w] [u])]
  rfl

/-- Full evaluation of the engine on two one-dimensional vectors whose
normalized forms are `[u]` and `[w]`, with `k = 1` and `batch_size = 1`. -/
theorem compute_two_eval (vectors : List (List ℝ)) (u w : ℝ)
    (hv : vectors.map normalize = [[u], [w]]) (hlen : vectors.length = 2) :
    compute_topk_similarities ([0, 1] : List ℕ) vectors 1 1 =
      .ok [(0, ⟨[1], [((dot [u] [w] : ℝ) : WithBot ℝ)]⟩),
        (1, ⟨[0], [((dot [w] [u] : ℝ) : WithBot ℝ)]⟩)] := by
  rw [compute_ok [0, 1] vectors 1 1 (by rw [hlen]; rfl) (by norm_num)
      (by rw [hlen]; norm_num), hv, hlen, procFrom_eq_range 2 1 (by norm_num)]
  have hrange : List.range 2 = [0, 1] := rfl
  rw [hrange]
  have hbuild : buildWith (fun g => ([0, 1] : List ℕ).getD g default)
      (fun g => rowEntry ([0, 1] : List ℕ) [[u], [w]] (Int.toNat 1) g) [0, 1] =
      [(0, rowEntry ([0, 1] : List ℕ) [[u], [w]] 1 0),
        (1, rowEntry ([0, 1] : List ℕ) [[u], [w]] 1 1)] := rfl
  rw [hbuild, rowEntry_two_0, rowEntry_two_1]
  rfl

/-- C6 (amended): scaling every vector by `c > 0` leaves the result
unchanged provided the clip floor stays inactive on both sides, i.e. every
row's norm and scaled norm are at least `1e-10`; then normalization
absorbs the factor exactly and the two results are identical. -/
theorem topk_scale_invariance {K : Type} [DecidableEq K] [Inhabited K]
    (keys : List K) (vectors : List (List ℝ)) (k : ℤ) (bs : ℕ) (c : ℝ)
    (_hnd : keys.Nodup) (hlen : keys.length = vectors.length)
    (hk0 : 0 < k) (hkn : k < (vectors.length : ℤ)) (hc : 0 < c)
    (hnorm : ∀ v ∈ vectors, eps ≤ norm2 v ∧ eps ≤ c * norm2 v) :
    compute_topk_similarities keys
        (vectors.map (fun v => v.map (fun x => c * x))) k bs =
      compute_topk_similarities keys vectors k bs := by
  have hlen2 : (vectors.map (fun v => v.map (fun x => c * x))).length =
      vectors.length := List.length_map _ _
  have hmap : (vectors.map (fun v => v.map (fun x => c * x))).map normalize =
      vectors.map normalize := by
    rw [List.map_map]
    apply List.map_congr_left
    intro v hv
    simp only [Function.comp_apply]
    exact normalize_scale c hc v (hnorm v hv).1 (hnorm v hv).2
  rw [compute_ok keys _ k bs (by rw [hlen2]; exact hlen) hk0
      (by rw [hlen2]; exact hkn),
    compute_ok keys vectors k bs hlen hk0 hkn, hmap, hlen2]

/-- C6 witness (for the amended claim): unit vectors scaled by 2. -/
theorem topk_scale_invariance_witness :
    ((0 : ℝ) < 2 ∧ ([0, 1] : List ℕ).Nodup ∧
      ([0, 1] : List ℕ).length = ([[1], [1]] : List (List ℝ)).length ∧
      (0 : ℤ) < 1 ∧ (1 : ℤ) < (([[1], [1]] : List (List ℝ)).length : ℤ) ∧
      (∀ v ∈ ([[1], [1]] : List (List ℝ)), eps ≤ norm2 v ∧ eps ≤ 2 * norm2 v)) ∧
    compute_topk_similarities ([0, 1] : List ℕ)
        (([[1], [1]] : List (List ℝ)).map (fun v => v.map (fun x => (2 : ℝ) * x))) 1 1 =
      compute_topk_similarities ([0, 1] : List ℕ) ([[1], [1]] : List (List ℝ)) 1 1 := by
  have hnorm : ∀ v ∈ ([[1], [1]] : List (List ℝ)),
      eps ≤ norm2 v ∧ eps ≤ 2 * norm2 v := by
    intro v hv
    have hv1 : v = [1] := by simpa using hv
    rw [hv1, norm2_singleton 1 (by norm_num)]
    norm_num [eps]
  exact ⟨⟨by norm_num, by decide, rfl, by norm_num, by norm_num, hnorm⟩,
    topk_scale_invariance [0, 1] [[1], [1]] 1 1 2 (by decide) rfl (by norm_num)
      (by norm_num) (by norm_num) hnorm⟩

/-- C6 counterexample to the claim as stated: the input
`[[1e-7], [1]]` is valid (unique keys, matching lengths, `0 < k < n`) and
`c = 1e-5 > 0`, yet scaling changes the result: the scaled first vector's
norm `1e-12` falls below the clip floor `1e-10`, so its normalization is
divided by the floor instead of the norm and its similarity to the other
document drops from `1` to `1/100`. -/
theorem topk_scale_counterexample :
    ((0 : ℝ) < 1 / 10 ^ 5 ∧ ([0, 1] : List ℕ).Nodup ∧
      ([0, 1] : List ℕ).length = ([[1 / 10 ^ 7], [1]] : List (List ℝ)).length ∧
      (0 : ℤ) < 1 ∧ (1 : ℤ) < (([[1 / 10 ^ 7], [1]] : List (List ℝ)).length : ℤ)) ∧
    compute_topk_similarities ([0, 1] : List ℕ)
        (([[1 / 10 ^ 7], [1]] : List (List ℝ)).map
          (fun v => v.map (fun x => (1 / 10 ^ 5 : ℝ) * x))) 1 1 ≠
      compute_topk_similarities ([0, 1] : List ℕ)
        ([[1 / 10 ^ 7], [1]] : List (List ℝ)) 1 1 := by
  refine ⟨⟨by norm_num, by decide, rfl, by norm_num, by norm_num⟩, ?_⟩
  have horig : compute_topk_similarities ([0, 1] : List ℕ)
      ([[1 / 10 ^ 7], [1]] : List (List ℝ)) 1 1 =
      .ok [(0, ⟨[1], [((dot [1] [1] : ℝ) : WithBot ℝ)]⟩),
        (1, ⟨[0], [((dot [1] [1] : ℝ) : WithBot ℝ)]⟩)] := by
    apply compute_two_eval
    · have h0 : ([[1 / 10 ^ 7], [1]] : List (List ℝ)).map normalize =
          [normalize [1 / 10 ^ 7], normalize [1]] := rfl
      rw [h0, normalize_singleton_ge (1 / 10 ^ 7) (by norm_num [eps]),
        normalize_singleton_ge 1 (by norm_num [eps])]
    · rfl
  have hscaled : compute_topk_similarities ([0, 1] : List ℕ)
      (([[1 / 10 ^ 7], [1]] : List (List ℝ)).map
        (fun v => v.map (fun x => (1 / 10 ^ 5 : ℝ) * x))) 1 1 =
      .ok [(0, ⟨[1], [((dot [(1 / 10 ^ 5 : ℝ) * (1 / 10 ^ 7) / eps] [1] : ℝ) : WithBot ℝ)]⟩),
        (1, ⟨[0], [((dot [1] [(1 / 10 ^ 5 : ℝ) * (1 / 10 ^ 7) / eps] : ℝ) : WithBot ℝ)]⟩)] := by
    apply compute_two_eval
    · have h0 : (([[1 / 10 ^ 7], [1]] : List (List ℝ)).map
          (fun v => v.map (fun x => (1 / 10 ^ 5 : ℝ) * x))).map normalize =
          [normalize [(1 / 10 ^ 5 : ℝ) * (1 / 10 ^ 7)],
            normalize [(1 / 10 ^ 5 : ℝ) * 1]] := rfl
      rw [h0, normalize_singleton_le ((1 / 10 ^ 5 : ℝ) * (1 / 10 ^ 7)) (by norm_num)
          (by norm_num [eps]),
        normalize_singleton_ge ((1 / 10 ^ 5 : ℝ) * 1) (by norm_num [eps])]
    · rfl
  intro h
  rw [horig, hscaled] at h
  simp only [Except.ok.injEq, List.cons.injEq, Prod.mk.injEq, Entry.mk.injEq,
    WithBot.coe_eq_coe, dot_single, and_true] at h
  norm_num [eps] at h

end DiplomaThesis
